import Mathlib

/-!
Shallow embedding of the C hash map in `hashmap.h` (repository IlayM3/C_Hashmap),
together with proofs of the specification's claims about it.

Modelling conventions:

* A C string key is modelled as the list of its byte values (`Key := List Nat`).
  The code reads characters with `int c; while ((c = *string++))`; the signedness
  of `char` is implementation-defined in C, and we model each character as its
  unsigned byte value.  A valid C string consists of nonzero bytes (the NUL byte
  terminates it); none of the claims depend on NUL or high bytes.
* `unsigned long` arithmetic (64-bit) wraps modulo `2 ^ 64` (`ulongMod`).
* Heap pointers and `malloc` failure are not modelled: every allocation that the
  code performs is modelled as succeeding, and the `NULL`-argument checks
  (`HM_ERR_INVALID_ARG` paths) are outside the embedding since a Lean value of
  type `Hashmap` is never null.
* A bucket (a singly linked chain of `pair` nodes) is a `List Pair`; the bucket
  array is a `List (List Pair)`.  `nth` and `setNth` model `map->buckets[index]`
  reads and writes: a read out of bounds yields the empty chain and a write out
  of bounds is a no-op, but well-formed maps (`Wf`) never index out of bounds.
* The load-factor test `(float) map->count / map->size > 0.75` is modelled
  exactly, in IEEE binary32 round-to-nearest-even semantics, by
  `loadFactorGtMax`: both int operands are converted to float, divided in
  single precision, and the quotient (promoted exactly to double) is compared
  with the exact double constant 0.75.  The float computation genuinely
  diverges from the exact rational comparison at some reachable states (see
  the C5 counterexample), so the rounding is part of the model.
* The `size` and `count` fields of `struct hashmap` are 32-bit C `int`s.  The
  model carries them as unbounded naturals, which agrees with the code exactly
  as long as both stay within the int range; doubling the size past `INT_MAX`
  makes the code wrap the stored field (`intWrap`, exhibited by the C6
  theorem) and corrupt the container.  Theorems that range over whole
  executions therefore carry a `runIntSafe` bound, and the resize
  postcondition theorem assumes the doubled count fits the int range:
  these hypotheses delimit the regime in which this embedding is the program.
* `contains_key` and `clear` are declared in `hashmap.h` but have no definition
  anywhere in the repository source; they are modelled from the spec where
  indicated below.
-/

deriving instance DecidableEq for Except

namespace CHashmap

/-- A C string key, as the list of its byte values. -/
abbrev Key := List Nat

/-- The modulus of C `unsigned long` arithmetic (64-bit). -/
def ulongMod : Nat := 2 ^ 64

/-- The largest value of a C `int` (32-bit), the type of the `size` and `count`
fields of `struct hashmap`. -/
def INT_MAX : Nat := 2 ^ 31 - 1

/-- The DJB2 hash of `hashmap.h`: seed 5381, then for each byte in order
`hash_val = ((hash_val << 5) + hash_val) + c`, i.e. `hash * 33 + c`, in
wrapping `unsigned long` arithmetic. -/
def hash (s : Key) : Nat := s.foldl (fun h c => (h * 33 + c) % ulongMod) 5381

/-- The `HASH_INDEX(key, size)` macro: `hash(key) % (unsigned long) size`. -/
def hashIndex (key : Key) (size : Nat) : Nat := hash key % size

/-- One `struct pair`: an owned key, a value, and (implicitly, via its position
in a `List Pair` chain) the `next` link. -/
structure Pair where
  key : Key
  value : Int
  deriving DecidableEq, Repr

/-- The `struct hashmap`: bucket count `size`, the bucket array, and the live
entry count. -/
structure Hashmap where
  size : Nat
  buckets : List (List Pair)
  count : Nat
  deriving DecidableEq, Repr

/-- The `HashMapStatus` result enum of `hashmap.h`. -/
inductive HashMapStatus where
  | HM_SUCCESS
  | HM_ERR_MALLOC_FAILED
  | HM_ERR_KEY_NOT_FOUND
  | HM_ERR_INVALID_ARG
  | HM_ERR_REHASHING_FAILED
  | HM_ERR_CLEAR_FAILED
  | HM_ERR_SIZE_LIMIT
  deriving DecidableEq, Repr

/-- Reading `buckets[i]`: out-of-range reads yield the empty chain (well-formed
maps never read out of range). -/
def nth : List (List Pair) → Nat → List Pair
  | [], _ => []
  | c :: _, 0 => c
  | _ :: rest, n + 1 => nth rest n

/-- Writing `buckets[i] = c`: out-of-range writes are no-ops (well-formed maps
never write out of range). -/
def setNth : List (List Pair) → Nat → List Pair → List (List Pair)
  | [], _, _ => []
  | _ :: rest, 0, c => c :: rest
  | b :: rest, n + 1, c => b :: setNth rest n c

/-- All entries reachable by walking every bucket's chain, in bucket order. -/
def allEntries : List (List Pair) → List Pair
  | [] => []
  | c :: rest => c ++ allEntries rest

/-- The number of entries reachable by walking every bucket's chain. -/
def totalEntries (m : Hashmap) : Nat := (allEntries m.buckets).length

/-- `c_hashmap(size)`: rejects `size <= 0`, otherwise allocates a map with
`size` empty buckets and `count = 0` (allocation modelled as succeeding). -/
def c_hashmap (size : Int) : Option Hashmap :=
  if size ≤ 0 then none
  else some ⟨size.toNat, List.replicate size.toNat [], 0⟩

/-- The chain walk shared by `get` and `delete_key`: the value of the first
entry of the chain whose key compares equal, if any. -/
def findInChain : List Pair → Key → Option Int
  | [], _ => none
  | p :: rest, key => if p.key = key then some p.value else findInChain rest key

/-- The chain walk of `put`'s first loop: whether some entry of the chain has
this key. -/
def chainHasKey : List Pair → Key → Bool
  | [], _ => false
  | p :: rest, key => p.key = key || chainHasKey rest key

/-- The update branch of `put`'s first loop: overwrite, in place, the value of
the first entry whose key matches. -/
def updateChain : List Pair → Key → Int → List Pair
  | [], _, _ => []
  | p :: rest, key, value =>
      if p.key = key then { p with value := value } :: rest
      else p :: updateChain rest key value

/-- The unlink step of `delete_key`'s loop: remove the first entry whose key
matches, keeping the rest of the chain; `none` when no entry matches. -/
def deleteInChain : List Pair → Key → Option (List Pair)
  | [], _ => none
  | p :: rest, key =>
      if p.key = key then some rest
      else match deleteInChain rest key with
           | some rest1 => some (p :: rest1)
           | none => none

/-- `get(map, key, &value)`: walk the chain of bucket `HASH_INDEX(key, size)`;
`HM_SUCCESS` with the stored value on a match, else `HM_ERR_KEY_NOT_FOUND`. -/
def get (m : Hashmap) (key : Key) : Except HashMapStatus Int :=
  match findInChain (nth m.buckets (hashIndex key m.size)) key with
  | some v => Except.ok v
  | none => Except.error HashMapStatus.HM_ERR_KEY_NOT_FOUND

/-- The update path of `put`: the first entry with a matching key in the target
bucket gets its value overwritten in place; no other field changes. -/
def putUpdate (m : Hashmap) (key : Key) (value : Int) : Hashmap :=
  let index := hashIndex key m.size
  { m with buckets := setNth m.buckets index (updateChain (nth m.buckets index) key value) }

/-- The insert path of `put` before the load-factor check: a fresh pair is
prepended to the head of the target bucket's chain and `count` is incremented. -/
def putInsert (m : Hashmap) (key : Key) (value : Int) : Hashmap :=
  let index := hashIndex key m.size
  { m with
      buckets := setNth m.buckets index (⟨key, value⟩ :: nth m.buckets index),
      count := m.count + 1 }

/-- One step of `resize`'s inner loop: detach the head entry of the old chain,
recompute its index against the new size, and prepend it to the new bucket. -/
def rehashChain : List Pair → List (List Pair) → Nat → Nat → List (List Pair) × Nat
  | [], buckets, _, count => (buckets, count)
  | p :: rest, buckets, size, count =>
      let newIndex := hashIndex p.key size
      rehashChain rest (setNth buckets newIndex (p :: nth buckets newIndex)) size (count + 1)

/-- `resize`'s outer loop over every old bucket. -/
def rehashAll : List (List Pair) → List (List Pair) → Nat → Nat → List (List Pair) × Nat
  | [], buckets, _, count => (buckets, count)
  | chain :: rest, buckets, size, count =>
      let r := rehashChain chain buckets size count
      rehashAll rest r.1 size r.2

/-- `resize(map)`: double the size, with the code's overflow check
`__builtin_mul_overflow(map->size, 2, &newSize)` against the range of the
64-bit `size_t` `newSize` (NOT against the range of the `int` `size` field);
then rehash every entry into a fresh zeroed bucket array, recounting from 0.
The model records the mathematical doubled size; the code stores `newSize`
into the 32-bit `int` field, which wraps (see `intWrap`) as soon as the
doubled count exceeds `INT_MAX`, after which the code indexes through the
wrapped value out of the allocated array.  The model is therefore the program
exactly when `2 * size ≤ INT_MAX`, and the theorems about resize and about
whole executions carry that bound. -/
def resize (m : Hashmap) : HashMapStatus × Hashmap :=
  let newSize := 2 * m.size
  if ulongMod ≤ newSize then (HashMapStatus.HM_ERR_SIZE_LIMIT, m)
  else
    let r := rehashAll m.buckets (List.replicate newSize []) newSize 0
    (HashMapStatus.HM_SUCCESS, ⟨newSize, r.1, r.2⟩)

/-- The two's-complement result of the C assignment `map->size = newSize`
(storing a `size_t` into the 32-bit `int` field), as GCC implements it. -/
def intWrap (n : Nat) : Int :=
  if n % 2 ^ 32 < 2 ^ 31 then ((n % 2 ^ 32 : Nat) : Int)
  else ((n % 2 ^ 32 : Nat) : Int) - 2 ^ 32

/-- Floor of the base-2 logarithm, by structural recursion on a fuel bound. -/
def log2fuel : Nat → Nat → Nat
  | 0, _ => 0
  | fuel + 1, n => if n ≤ 1 then 0 else log2fuel fuel (n / 2) + 1

/-- Floor of the base-2 logarithm of a positive natural below `2 ^ 64`. -/
def nlog2 (n : Nat) : Nat := log2fuel 64 n

/-- Round the rational `a / b` (with `b > 0`) to the nearest integer, ties to
even: the IEEE default rounding. -/
def rne (a b : Nat) : Nat :=
  let q := a / b
  let r := a % b
  if 2 * r < b then q
  else if b < 2 * r then q + 1
  else if q % 2 = 0 then q else q + 1

/-- The IEEE binary32 value of a nonnegative integer (the C conversion
`(float) n` of an `int`): exact below `2 ^ 24`, otherwise rounded to a 24-bit
significand with round-to-nearest-even.  The result of rounding an integer at
or above `2 ^ 24` is again an integer. -/
def fl32Nat (n : Nat) : Nat :=
  if n ≤ 2 ^ 24 then n
  else
    let e := nlog2 n
    rne n (2 ^ (e - 23)) * 2 ^ (e - 23)

/-- The `LOAD_FACTOR(map) > MAX_FACTOR` test of put, in exact IEEE binary32
semantics with the default round-to-nearest-even mode: `(float) map->count`
and the converted `map->size` are divided in single precision, the quotient
(promoted exactly to double) is compared with the double literal `0.75`.
The quotient `s / 2 ^ sh` (with `2 ^ 23 ≤ s ≤ 2 ^ 24`) exceeds `3 / 4` exactly
when `3 * 2 ^ sh < 4 * s`; a nonpositive shift means a quotient of at least 2,
always above the threshold.  Subnormals and overflow cannot occur for
int-ranged operands. -/
def loadFactorGtMax (count size : Nat) : Bool :=
  let x := fl32Nat count
  let y := fl32Nat size
  if x = 0 then false
  else
    let d : Int := (nlog2 x : Int) - (nlog2 y : Int)
    let e : Int := if y * 2 ^ d.toNat ≤ x * 2 ^ (-d).toNat then d else d - 1
    let sh : Int := 23 - e
    let s := if 0 ≤ sh then rne (x * 2 ^ sh.toNat) y else rne x (y * 2 ^ (-sh).toNat)
    if 0 ≤ sh then decide (3 * 2 ^ sh.toNat < 4 * s) else true

/-- `put(map, key, value)`: walk the target bucket; on a key match overwrite in
place and return `HM_SUCCESS`; otherwise prepend a fresh pair, increment
`count`, and if the single-precision load-factor computation
`(float) map->count / map->size` compares above `MAX_FACTOR` (0.75) invoke
`resize`, surfacing a failed resize as `HM_ERR_REHASHING_FAILED`. -/
def put (m : Hashmap) (key : Key) (value : Int) : HashMapStatus × Hashmap :=
  if chainHasKey (nth m.buckets (hashIndex key m.size)) key then
    (HashMapStatus.HM_SUCCESS, putUpdate m key value)
  else if loadFactorGtMax (putInsert m key value).count (putInsert m key value).size then
    let r := resize (putInsert m key value)
    if r.1 = HashMapStatus.HM_SUCCESS then (HashMapStatus.HM_SUCCESS, r.2)
    else (HashMapStatus.HM_ERR_REHASHING_FAILED, r.2)
  else (HashMapStatus.HM_SUCCESS, putInsert m key value)

/-- `delete_key(map, key)`: walk the target bucket tracking the previous node;
on a match unlink the node and decrement `count`, else `HM_ERR_KEY_NOT_FOUND`
with the map untouched. -/
def delete_key (m : Hashmap) (key : Key) : HashMapStatus × Hashmap :=
  let index := hashIndex key m.size
  match deleteInChain (nth m.buckets index) key with
  | some chain1 =>
      (HashMapStatus.HM_SUCCESS,
        { m with buckets := setNth m.buckets index chain1, count := m.count - 1 })
  | none => (HashMapStatus.HM_ERR_KEY_NOT_FOUND, m)

/-- Modelled from the spec: `contains_key` is declared in `hashmap.h` (marked
TODO) but has no definition in the repository source.  Spec 4.6: a
boolean-returning variant of lookup with identical chain-walk logic and no
value output. -/
def contains_key (m : Hashmap) (key : Key) : Bool :=
  chainHasKey (nth m.buckets (hashIndex key m.size)) key

/-- Modelled from the spec: `clear` is declared in `hashmap.h` (marked TODO)
but has no definition in the repository source.  Spec 4.6: free every chain,
reset every bucket head to empty, reset `count` to 0, keeping the bucket array
size unchanged. -/
def clear (m : Hashmap) : HashMapStatus × Hashmap :=
  (HashMapStatus.HM_SUCCESS, { m with buckets := m.buckets.map (fun _ => []), count := 0 })

/-- Whether a `get` outcome is a successful find. -/
def isFound : Except HashMapStatus Int → Bool
  | Except.ok _ => true
  | Except.error _ => false

/-- The mutating and reading operations a caller can apply to a live map. -/
inductive Op where
  | opPut (key : Key) (value : Int)
  | opGet (key : Key)
  | opDelete (key : Key)
  | opResize
  deriving DecidableEq, Repr

/-- The map after one operation (`get` is read-only: its model returns a value
and leaves the map untouched). -/
def applyOp (m : Hashmap) : Op → Hashmap
  | Op.opPut k v => (put m k v).2
  | Op.opGet _ => m
  | Op.opDelete k => (delete_key m k).2
  | Op.opResize => (resize m).2

/-- The map after a sequence of operations. -/
def runOps (m : Hashmap) : List Op → Hashmap
  | [] => m
  | op :: rest => runOps (applyOp m op) rest

/-- Whether an operation neither overwrites nor deletes the given key. -/
def opAvoids (op : Op) (key : Key) : Bool :=
  match op with
  | Op.opPut k _ => decide (k ≠ key)
  | Op.opDelete k => decide (k ≠ key)
  | Op.opGet _ => true
  | Op.opResize => true

/-- The bucket-index invariant of spec section 3: every stored entry lives in
the bucket selected by `hash(key) mod size`. -/
def bucketsIndexed (buckets : List (List Pair)) (size : Nat) : Prop :=
  ∀ i, i < buckets.length → ∀ p ∈ nth buckets i, hashIndex p.key size = i

/-- Well-formedness of a live map: positive size, bucket array of exactly
`size` buckets, `count` equal to the number of reachable entries, the
bucket-index invariant, and no duplicate keys across all chains. -/
def Wf (m : Hashmap) : Prop :=
  0 < m.size ∧ m.buckets.length = m.size ∧ m.count = totalEntries m ∧
  bucketsIndexed m.buckets m.size ∧ ((allEntries m.buckets).map Pair.key).Nodup

instance (b : List (List Pair)) (s : Nat) : Decidable (bucketsIndexed b s) := by
  unfold bucketsIndexed
  infer_instance

instance (m : Hashmap) : Decidable (Wf m) := by
  unfold Wf
  infer_instance

/-- Every state passed through by the run (including the initial one) keeps
the container's two `int` fields within the int range.  This is exactly the
regime in which the model's unbounded naturals agree with the code's 32-bit
fields: growing the bucket count past `INT_MAX` makes the code's resize wrap
the stored size field (see `intWrap` and the C6 theorem), corrupting the
container. -/
def runIntSafe (m0 : Hashmap) (ops : List Op) : Prop :=
  ∀ i ≤ ops.length,
    (runOps m0 (List.take i ops)).size ≤ INT_MAX ∧
    (runOps m0 (List.take i ops)).count ≤ INT_MAX

instance (m0 : Hashmap) (ops : List Op) : Decidable (runIntSafe m0 ops) := by
  unfold runIntSafe
  infer_instance

/-! Basic lemmas about the bucket-array accessors. -/

theorem length_setNth (l : List (List Pair)) (i : Nat) (c : List Pair) :
    (setNth l i c).length = l.length := by
  induction l generalizing i with
  | nil => rfl
  | cons b rest ih =>
      cases i with
      | zero => rfl
      | succ n => simp [setNth, ih]

theorem nth_oob (l : List (List Pair)) (i : Nat) (h : l.length ≤ i) : nth l i = [] := by
  induction l generalizing i with
  | nil => cases i <;> rfl
  | cons b rest ih =>
      cases i with
      | zero => simp at h
      | succ n =>
          simp only [List.length_cons] at h
          exact ih n (by omega)

theorem setNth_oob (l : List (List Pair)) (i : Nat) (c : List Pair) (h : l.length ≤ i) :
    setNth l i c = l := by
  induction l generalizing i with
  | nil => rfl
  | cons b rest ih =>
      cases i with
      | zero => simp at h
      | succ n =>
          simp only [List.length_cons] at h
          simp [setNth, ih n (by omega)]

theorem nth_setNth_self (l : List (List Pair)) (i : Nat) (c : List Pair) (h : i < l.length) :
    nth (setNth l i c) i = c := by
  induction l generalizing i with
  | nil => simp at h
  | cons b rest ih =>
      cases i with
      | zero => rfl
      | succ n =>
          simp only [List.length_cons] at h
          exact ih n (by omega)

theorem nth_setNth_ne (l : List (List Pair)) (i j : Nat) (c : List Pair) (h : i ≠ j) :
    nth (setNth l i c) j = nth l j := by
  induction l generalizing i j with
  | nil => rfl
  | cons b rest ih =>
      cases i with
      | zero =>
          cases j with
          | zero => exact absurd rfl h
          | succ n => rfl
      | succ n =>
          cases j with
          | zero => rfl
          | succ n1 => exact ih n n1 (by omega)

theorem mem_allEntries_of_nth {p : Pair} {l : List (List Pair)} {i : Nat}
    (h : p ∈ nth l i) : p ∈ allEntries l := by
  induction l generalizing i with
  | nil => cases i <;> simp [nth] at h
  | cons b rest ih =>
      cases i with
      | zero =>
          simp only [nth] at h
          simp only [allEntries, List.mem_append]
          exact Or.inl h
      | succ n =>
          simp only [nth] at h
          simp only [allEntries, List.mem_append]
          exact Or.inr (ih h)

theorem mem_allEntries_iff {p : Pair} {l : List (List Pair)} :
    p ∈ allEntries l ↔ ∃ i, i < l.length ∧ p ∈ nth l i := by
  constructor
  · induction l with
    | nil => intro hm; simp [allEntries] at hm
    | cons b rest ih =>
        intro hm
        simp only [allEntries, List.mem_append] at hm
        rcases hm with hb | hr
        · exact ⟨0, by simp, hb⟩
        · rcases ih hr with ⟨i, hi, hp⟩
          exact ⟨i + 1, by simp [hi], hp⟩
  · rintro ⟨i, _, hp⟩
    exact mem_allEntries_of_nth hp

theorem allEntries_push (l : List (List Pair)) (i : Nat) (p : Pair) (h : i < l.length) :
    List.Perm (allEntries (setNth l i (p :: nth l i))) (p :: allEntries l) := by
  induction l generalizing i with
  | nil => simp at h
  | cons b rest ih =>
      cases i with
      | zero =>
          simp only [setNth, nth, allEntries, List.cons_append]
          exact List.Perm.refl _
      | succ n =>
          simp only [List.length_cons] at h
          simp only [setNth, nth, allEntries]
          exact List.Perm.trans (List.Perm.append_left b (ih n (by omega))) List.perm_middle

theorem allEntries_pull (l : List (List Pair)) (i : Nat) (p : Pair) (c : List Pair)
    (h : i < l.length) (hperm : List.Perm (nth l i) (p :: c)) :
    List.Perm (allEntries l) (p :: allEntries (setNth l i c)) := by
  induction l generalizing i with
  | nil => simp at h
  | cons b rest ih =>
      cases i with
      | zero =>
          simp only [nth] at hperm
          simp only [setNth, allEntries]
          exact List.Perm.append_right _ hperm
      | succ n =>
          simp only [List.length_cons] at h
          simp only [nth] at hperm
          simp only [setNth, allEntries]
          exact List.Perm.trans (List.Perm.append_left b (ih n (by omega) hperm)) List.perm_middle

theorem allEntries_keys_setNth (l : List (List Pair)) (i : Nat) (c : List Pair)
    (hk : c.map Pair.key = (nth l i).map Pair.key) :
    (allEntries (setNth l i c)).map Pair.key = (allEntries l).map Pair.key := by
  induction l generalizing i with
  | nil => rfl
  | cons b rest ih =>
      cases i with
      | zero =>
          simp only [nth] at hk
          simp only [setNth, allEntries, List.map_append, hk]
      | succ n =>
          simp only [nth] at hk
          simp only [setNth, allEntries, List.map_append, ih n hk]

theorem allEntries_replicate (n : Nat) : allEntries (List.replicate n []) = [] := by
  induction n with
  | zero => rfl
  | succ k ih => simpa [List.replicate, allEntries] using ih

theorem nth_replicate (n i : Nat) : nth (List.replicate n []) i = [] := by
  induction n generalizing i with
  | zero => cases i <;> rfl
  | succ k ih =>
      cases i with
      | zero => rfl
      | succ j => simpa [List.replicate, nth] using ih j

theorem nth_map_nil (l : List (List Pair)) (i : Nat) :
    nth (l.map fun _ => []) i = [] := by
  induction l generalizing i with
  | nil => cases i <;> rfl
  | cons b rest ih =>
      cases i with
      | zero => rfl
      | succ n => simpa [nth] using ih n

theorem nth_sublist (l : List (List Pair)) (i : Nat) :
    List.Sublist (nth l i) (allEntries l) := by
  induction l generalizing i with
  | nil => cases i <;> exact List.Sublist.refl _
  | cons b rest ih =>
      cases i with
      | zero =>
          simp only [nth, allEntries]
          exact List.sublist_append_left b (allEntries rest)
      | succ n =>
          simp only [nth, allEntries]
          exact List.Sublist.trans (ih n) (List.sublist_append_right b (allEntries rest))

/-! Lemmas about the chain walks shared by the operations. -/

theorem chainHasKey_false_iff (c : List Pair) (k : Key) :
    chainHasKey c k = false ↔ findInChain c k = none := by
  induction c with
  | nil => simp [chainHasKey, findInChain]
  | cons p rest ih =>
      by_cases h : p.key = k
      · simp [chainHasKey, findInChain, h]
      · simp [chainHasKey, findInChain, h, ih]

theorem chainHasKey_of_mem {c : List Pair} {p : Pair} {k : Key}
    (hp : p ∈ c) (hk : p.key = k) : chainHasKey c k = true := by
  induction c with
  | nil => simp at hp
  | cons q rest ih =>
      rcases List.mem_cons.1 hp with rfl | hmem
      · simp [chainHasKey, hk]
      · by_cases hq : q.key = k <;> simp [chainHasKey, hq, ih hmem]

theorem findInChain_mem {c : List Pair} {k : Key} {v : Int}
    (h : findInChain c k = some v) : ∃ p, p ∈ c ∧ p.key = k ∧ p.value = v := by
  induction c with
  | nil => simp [findInChain] at h
  | cons q rest ih =>
      by_cases hq : q.key = k
      · simp only [findInChain, if_pos hq, Option.some.injEq] at h
        exact ⟨q, List.mem_cons_self q rest, hq, h⟩
      · simp only [findInChain, if_neg hq] at h
        rcases ih h with ⟨p, hp, hk, hv⟩
        exact ⟨p, List.mem_cons_of_mem _ hp, hk, hv⟩

theorem findInChain_eq_of_mem {c : List Pair} {p : Pair} {k : Key}
    (hnd : (c.map Pair.key).Nodup) (hp : p ∈ c) (hk : p.key = k) :
    findInChain c k = some p.value := by
  induction c with
  | nil => simp at hp
  | cons q rest ih =>
      simp only [List.map_cons, List.nodup_cons] at hnd
      rcases List.mem_cons.1 hp with rfl | hmem
      · simp [findInChain, hk]
      · have hq : q.key ≠ k := by
          intro he
          exact hnd.1 (by rw [he, ← hk]; exact List.mem_map_of_mem Pair.key hmem)
        simp only [findInChain, if_neg hq]
        exact ih hnd.2 hmem

theorem findInChain_none_of {c : List Pair} {k : Key}
    (h : ∀ p ∈ c, p.key ≠ k) : findInChain c k = none := by
  induction c with
  | nil => rfl
  | cons q rest ih =>
      simp only [findInChain, if_neg (h q (List.mem_cons_self q rest))]
      exact ih fun p hp => h p (List.mem_cons_of_mem _ hp)

theorem none_findInChain {c : List Pair} {k : Key}
    (h : findInChain c k = none) : ∀ p ∈ c, p.key ≠ k := by
  induction c with
  | nil => simp
  | cons q rest ih =>
      by_cases hq : q.key = k
      · simp [findInChain, hq] at h
      · simp only [findInChain, if_neg hq] at h
        intro p hp
        rcases List.mem_cons.1 hp with rfl | hmem
        · exact hq
        · exact ih h p hmem

theorem updateChain_keys (c : List Pair) (k : Key) (v : Int) :
    (updateChain c k v).map Pair.key = c.map Pair.key := by
  induction c with
  | nil => rfl
  | cons q rest ih =>
      by_cases hq : q.key = k
      · simp [updateChain, hq]
      · simp [updateChain, hq, ih]

theorem findInChain_updateChain_self {c : List Pair} {k : Key}
    (h : chainHasKey c k = true) (v : Int) :
    findInChain (updateChain c k v) k = some v := by
  induction c with
  | nil => simp [chainHasKey] at h
  | cons q rest ih =>
      by_cases hq : q.key = k
      · simp [updateChain, findInChain, hq]
      · simp only [chainHasKey, Bool.or_eq_true, decide_eq_true_eq] at h
        rcases h with h | h
        · exact absurd h hq
        · simp only [updateChain, if_neg hq, findInChain]
          exact ih h

theorem findInChain_updateChain_ne {c : List Pair} {k1 k : Key} (v : Int)
    (h : k1 ≠ k) : findInChain (updateChain c k1 v) k = findInChain c k := by
  induction c with
  | nil => rfl
  | cons q rest ih =>
      by_cases hq : q.key = k1
      · have hqk : q.key ≠ k := by rw [hq]; exact h
        simp [updateChain, findInChain, hq, hqk, h, Ne.symm h]
      · by_cases hqk : q.key = k <;>
          simp [updateChain, findInChain, hq, hqk, h, Ne.symm h, ih]

theorem mem_updateChain {c : List Pair} {k : Key} {v : Int} {p : Pair}
    (h : p ∈ updateChain c k v) : ∃ q ∈ c, q.key = p.key := by
  induction c with
  | nil => simp [updateChain] at h
  | cons q rest ih =>
      by_cases hq : q.key = k
      · simp only [updateChain, if_pos hq] at h
        rcases List.mem_cons.1 h with rfl | hmem
        · exact ⟨q, List.mem_cons_self q rest, rfl⟩
        · exact ⟨p, List.mem_cons_of_mem _ hmem, rfl⟩
      · simp only [updateChain, if_neg hq] at h
        rcases List.mem_cons.1 h with rfl | hmem
        · exact ⟨p, List.mem_cons_self p rest, rfl⟩
        · rcases ih hmem with ⟨q1, hq1, hk1⟩
          exact ⟨q1, List.mem_cons_of_mem _ hq1, hk1⟩

theorem deleteInChain_none_iff (c : List Pair) (k : Key) :
    deleteInChain c k = none ↔ findInChain c k = none := by
  induction c with
  | nil => simp [deleteInChain, findInChain]
  | cons q rest ih =>
      by_cases hq : q.key = k
      · simp [deleteInChain, findInChain, hq]
      · simp only [deleteInChain, findInChain, if_neg hq]
        cases hd : deleteInChain rest k with
        | none => simpa using ih.1 hd
        | some rest1 =>
            have hne : findInChain rest k ≠ none := by
              intro hf
              rw [ih.2 hf] at hd
              simp at hd
            simpa using hne

theorem deleteInChain_perm {c : List Pair} {k : Key} {c1 : List Pair}
    (h : deleteInChain c k = some c1) :
    ∃ p : Pair, p.key = k ∧ List.Perm c (p :: c1) := by
  induction c generalizing c1 with
  | nil => simp [deleteInChain] at h
  | cons q rest ih =>
      by_cases hq : q.key = k
      · simp only [deleteInChain, if_pos hq, Option.some.injEq] at h
        subst h
        exact ⟨q, hq, List.Perm.refl _⟩
      · simp only [deleteInChain, if_neg hq] at h
        cases hd : deleteInChain rest k with
        | none => rw [hd] at h; simp at h
        | some rest1 =>
            rw [hd] at h
            simp only [Option.some.injEq] at h
            subst h
            rcases ih hd with ⟨p, hpk, hperm⟩
            exact ⟨p, hpk, List.Perm.trans (List.Perm.cons q hperm) (List.Perm.swap p q rest1)⟩

theorem findInChain_deleteInChain_ne {c : List Pair} {k1 k : Key} {c1 : List Pair}
    (hne : k1 ≠ k) (h : deleteInChain c k1 = some c1) :
    findInChain c1 k = findInChain c k := by
  induction c generalizing c1 with
  | nil => simp [deleteInChain] at h
  | cons q rest ih =>
      by_cases hq : q.key = k1
      · simp only [deleteInChain, if_pos hq, Option.some.injEq] at h
        subst h
        have hqk : q.key ≠ k := by rw [hq]; exact hne
        simp [findInChain, hqk]
      · simp only [deleteInChain, if_neg hq] at h
        cases hd : deleteInChain rest k1 with
        | none => rw [hd] at h; simp at h
        | some rest1 =>
            rw [hd] at h
            simp only [Option.some.injEq] at h
            subst h
            by_cases hqk : q.key = k <;> simp [findInChain, hqk, ih hd]

/-! Well-formedness projections and the characterization of `get`. -/

theorem Wf.size_pos {m : Hashmap} (h : Wf m) : 0 < m.size := h.1

theorem Wf.len {m : Hashmap} (h : Wf m) : m.buckets.length = m.size := h.2.1

theorem Wf.count_eq {m : Hashmap} (h : Wf m) : m.count = totalEntries m := h.2.2.1

theorem Wf.indexed {m : Hashmap} (h : Wf m) : bucketsIndexed m.buckets m.size := h.2.2.2.1

theorem Wf.keys_nodup {m : Hashmap} (h : Wf m) :
    ((allEntries m.buckets).map Pair.key).Nodup := h.2.2.2.2

theorem chain_nodup {m : Hashmap} (hwf : Wf m) (i : Nat) :
    ((nth m.buckets i).map Pair.key).Nodup :=
  List.Nodup.sublist (List.Sublist.map Pair.key (nth_sublist m.buckets i)) hwf.keys_nodup

theorem get_eq_found {m : Hashmap} {k : Key} {v : Int}
    (h : findInChain (nth m.buckets (hashIndex k m.size)) k = some v) :
    get m k = Except.ok v := by
  unfold get
  rw [h]

theorem get_eq_missing {m : Hashmap} {k : Key}
    (h : findInChain (nth m.buckets (hashIndex k m.size)) k = none) :
    get m k = Except.error HashMapStatus.HM_ERR_KEY_NOT_FOUND := by
  unfold get
  rw [h]

theorem get_congr_chain {m1 m2 : Hashmap} {k : Key}
    (h : findInChain (nth m1.buckets (hashIndex k m1.size)) k
       = findInChain (nth m2.buckets (hashIndex k m2.size)) k) :
    get m1 k = get m2 k := by
  unfold get
  rw [h]

theorem get_ok_iff {m : Hashmap} {k : Key} {v : Int} (hwf : Wf m) :
    get m k = Except.ok v ↔
      ∃ p, p ∈ allEntries m.buckets ∧ p.key = k ∧ p.value = v := by
  constructor
  · intro h
    unfold get at h
    cases hf : findInChain (nth m.buckets (hashIndex k m.size)) k with
    | none => rw [hf] at h; cases h
    | some w =>
        rw [hf] at h
        cases h
        rcases findInChain_mem hf with ⟨p, hp, hk, hv⟩
        exact ⟨p, mem_allEntries_of_nth hp, hk, hv⟩
  · rintro ⟨p, hp, hk, hv⟩
    rcases mem_allEntries_iff.1 hp with ⟨i, hi, hpi⟩
    have hidx : hashIndex k m.size = i := by
      rw [← hk]
      exact hwf.indexed i hi p hpi
    have hfind : findInChain (nth m.buckets i) k = some p.value :=
      findInChain_eq_of_mem (chain_nodup hwf i) hpi hk
    unfold get
    rw [hidx, hfind, hv]

theorem get_err_iff {m : Hashmap} {k : Key} (hwf : Wf m) :
    get m k = Except.error HashMapStatus.HM_ERR_KEY_NOT_FOUND ↔
      ∀ p ∈ allEntries m.buckets, p.key ≠ k := by
  constructor
  · intro h p hp hk
    have hok : get m k = Except.ok p.value := (get_ok_iff hwf).2 ⟨p, hp, hk, rfl⟩
    rw [h] at hok
    cases hok
  · intro h
    have hf : findInChain (nth m.buckets (hashIndex k m.size)) k = none :=
      findInChain_none_of fun p hp => h p (mem_allEntries_of_nth hp)
    unfold get
    rw [hf]

theorem get_cases (m : Hashmap) (k : Key) :
    (∃ v, get m k = Except.ok v) ∨
      get m k = Except.error HashMapStatus.HM_ERR_KEY_NOT_FOUND := by
  unfold get
  cases findInChain (nth m.buckets (hashIndex k m.size)) k with
  | none => exact Or.inr rfl
  | some v => exact Or.inl ⟨v, rfl⟩

theorem findInChain_deleteInChain_self {c : List Pair} {k : Key} {c1 : List Pair}
    (hnd : (c.map Pair.key).Nodup) (h : deleteInChain c k = some c1) :
    findInChain c1 k = none := by
  rcases deleteInChain_perm h with ⟨p, hpk, hperm⟩
  apply findInChain_none_of
  intro q hq hqk
  have hnd2 := (List.Perm.nodup_iff (hperm.map Pair.key)).1 hnd
  simp only [List.map_cons, List.nodup_cons] at hnd2
  have hmem : q.key ∈ c1.map Pair.key := List.mem_map_of_mem Pair.key hq
  rw [hqk, ← hpk] at hmem
  exact hnd2.1 hmem

/-! Lemmas about the update path of put. -/

theorem putUpdate_size (m : Hashmap) (k : Key) (v : Int) :
    (putUpdate m k v).size = m.size := rfl

theorem putUpdate_count (m : Hashmap) (k : Key) (v : Int) :
    (putUpdate m k v).count = m.count := rfl

theorem putUpdate_allKeys (m : Hashmap) (k : Key) (v : Int) :
    (allEntries (putUpdate m k v).buckets).map Pair.key
      = (allEntries m.buckets).map Pair.key :=
  allEntries_keys_setNth m.buckets (hashIndex k m.size) _ (updateChain_keys _ k v)

theorem wf_putUpdate {m : Hashmap} (hwf : Wf m) (k : Key) (v : Int) :
    Wf (putUpdate m k v) := by
  refine ⟨hwf.size_pos, ?_, ?_, ?_, ?_⟩
  · show (setNth m.buckets (hashIndex k m.size) _).length = m.size
    rw [length_setNth]
    exact hwf.len
  · show m.count = totalEntries (putUpdate m k v)
    have h2 : totalEntries (putUpdate m k v) = totalEntries m := by
      unfold totalEntries
      have := congrArg List.length (putUpdate_allKeys m k v)
      simpa using this
    rw [h2]
    exact hwf.count_eq
  · intro i hi p hp
    have hi' : i < m.buckets.length := by
      have : (putUpdate m k v).buckets.length = m.buckets.length := by
        show (setNth m.buckets (hashIndex k m.size) _).length = _
        exact length_setNth _ _ _
      rw [← this]
      exact hi
    show hashIndex p.key m.size = i
    by_cases hieq : i = hashIndex k m.size
    · subst hieq
      have hb : nth (putUpdate m k v).buckets (hashIndex k m.size)
          = updateChain (nth m.buckets (hashIndex k m.size)) k v := by
        show nth (setNth m.buckets (hashIndex k m.size)
                (updateChain (nth m.buckets (hashIndex k m.size)) k v))
              (hashIndex k m.size) = _
        exact nth_setNth_self _ _ _ hi'
      rw [hb] at hp
      rcases mem_updateChain hp with ⟨q, hq, hkq⟩
      rw [← hkq]
      exact hwf.indexed _ hi' q hq
    · have hb : nth (putUpdate m k v).buckets i = nth m.buckets i := by
        show nth (setNth m.buckets (hashIndex k m.size) _) i = _
        exact nth_setNth_ne _ _ _ _ fun he => hieq he.symm
      rw [hb] at hp
      exact hwf.indexed i hi' p hp
  · rw [putUpdate_allKeys m k v]
    exact hwf.keys_nodup

theorem get_putUpdate_self {m : Hashmap} {k : Key} (v : Int)
    (h : chainHasKey (nth m.buckets (hashIndex k m.size)) k = true) :
    get (putUpdate m k v) k = Except.ok v := by
  have hne : nth m.buckets (hashIndex k m.size) ≠ [] := by
    intro he
    rw [he] at h
    simp [chainHasKey] at h
  have hlt : hashIndex k m.size < m.buckets.length := by
    by_contra hge
    exact hne (nth_oob _ _ (Nat.le_of_not_lt hge))
  refine get_eq_found ?_
  show findInChain
      (nth (setNth m.buckets (hashIndex k m.size)
              (updateChain (nth m.buckets (hashIndex k m.size)) k v))
           (hashIndex k m.size)) k = some v
  rw [nth_setNth_self _ _ _ hlt]
  exact findInChain_updateChain_self h v

theorem get_putUpdate_ne (m : Hashmap) {k1 k : Key} (v : Int) (hne : k1 ≠ k) :
    get (putUpdate m k1 v) k = get m k := by
  refine get_congr_chain ?_
  show findInChain
      (nth (setNth m.buckets (hashIndex k1 m.size)
              (updateChain (nth m.buckets (hashIndex k1 m.size)) k1 v))
           (hashIndex k m.size)) k
    = findInChain (nth m.buckets (hashIndex k m.size)) k
  by_cases hieq : hashIndex k1 m.size = hashIndex k m.size
  · rw [← hieq]
    by_cases hlt : hashIndex k1 m.size < m.buckets.length
    · rw [nth_setNth_self _ _ _ hlt]
      exact findInChain_updateChain_ne v hne
    · rw [setNth_oob _ _ _ (Nat.le_of_not_lt hlt)]
  · rw [nth_setNth_ne _ _ _ _ hieq]

/-! Lemmas about the insert path of put. -/

theorem putInsert_size (m : Hashmap) (k : Key) (v : Int) :
    (putInsert m k v).size = m.size := rfl

theorem putInsert_count (m : Hashmap) (k : Key) (v : Int) :
    (putInsert m k v).count = m.count + 1 := rfl

theorem putInsert_entries {m : Hashmap} (hwf : Wf m) (k : Key) (v : Int) :
    List.Perm (allEntries (putInsert m k v).buckets)
      ((⟨k, v⟩ : Pair) :: allEntries m.buckets) := by
  have hlt : hashIndex k m.size < m.buckets.length := by
    rw [hwf.len]
    exact Nat.mod_lt _ hwf.size_pos
  exact allEntries_push m.buckets (hashIndex k m.size) ⟨k, v⟩ hlt

theorem wf_putInsert {m : Hashmap} (hwf : Wf m) {k : Key} (v : Int)
    (habs : chainHasKey (nth m.buckets (hashIndex k m.size)) k = false) :
    Wf (putInsert m k v) := by
  have hlt : hashIndex k m.size < m.buckets.length := by
    rw [hwf.len]
    exact Nat.mod_lt _ hwf.size_pos
  refine ⟨hwf.size_pos, ?_, ?_, ?_, ?_⟩
  · show (setNth m.buckets (hashIndex k m.size) _).length = m.size
    rw [length_setNth]
    exact hwf.len
  · show m.count + 1 = totalEntries (putInsert m k v)
    have hperm := putInsert_entries hwf k v
    unfold totalEntries
    rw [hperm.length_eq, List.length_cons, hwf.count_eq]
    rfl
  · intro i hi p hp
    have hi' : i < m.buckets.length := by
      have hl : (putInsert m k v).buckets.length = m.buckets.length := by
        show (setNth m.buckets (hashIndex k m.size) _).length = _
        exact length_setNth _ _ _
      rw [← hl]
      exact hi
    show hashIndex p.key m.size = i
    by_cases hieq : i = hashIndex k m.size
    · subst hieq
      have hb : nth (putInsert m k v).buckets (hashIndex k m.size)
          = (⟨k, v⟩ : Pair) :: nth m.buckets (hashIndex k m.size) := by
        show nth (setNth m.buckets (hashIndex k m.size)
                ((⟨k, v⟩ : Pair) :: nth m.buckets (hashIndex k m.size)))
              (hashIndex k m.size) = _
        exact nth_setNth_self _ _ _ hi'
      rw [hb] at hp
      rcases List.mem_cons.1 hp with rfl | hmem
      · rfl
      · exact hwf.indexed _ hi' p hmem
    · have hb : nth (putInsert m k v).buckets i = nth m.buckets i := by
        show nth (setNth m.buckets (hashIndex k m.size) _) i = _
        exact nth_setNth_ne _ _ _ _ fun he => hieq he.symm
      rw [hb] at hp
      exact hwf.indexed i hi' p hp
  · have hperm := (putInsert_entries hwf k v).map Pair.key
    rw [List.Perm.nodup_iff hperm]
    simp only [List.map_cons, List.nodup_cons]
    refine ⟨?_, hwf.keys_nodup⟩
    intro hkmem
    rcases List.mem_map.1 hkmem with ⟨p, hp, hpk⟩
    rcases mem_allEntries_iff.1 hp with ⟨i, hi, hpi⟩
    have hidx : i = hashIndex k m.size := by
      rw [← hwf.indexed i hi p hpi, hpk]
    subst hidx
    have hhas := chainHasKey_of_mem hpi hpk
    rw [habs] at hhas
    cases hhas

theorem get_putInsert_self {m : Hashmap} (hwf : Wf m) (k : Key) (v : Int) :
    get (putInsert m k v) k = Except.ok v := by
  have hlt : hashIndex k m.size < m.buckets.length := by
    rw [hwf.len]
    exact Nat.mod_lt _ hwf.size_pos
  refine get_eq_found ?_
  show findInChain
      (nth (setNth m.buckets (hashIndex k m.size)
              ((⟨k, v⟩ : Pair) :: nth m.buckets (hashIndex k m.size)))
           (hashIndex k m.size)) k = some v
  rw [nth_setNth_self _ _ _ hlt]
  simp [findInChain]

theorem get_putInsert_ne (m : Hashmap) {k1 k : Key} (v : Int) (hne : k1 ≠ k) :
    get (putInsert m k1 v) k = get m k := by
  refine get_congr_chain ?_
  show findInChain
      (nth (setNth m.buckets (hashIndex k1 m.size)
              ((⟨k1, v⟩ : Pair) :: nth m.buckets (hashIndex k1 m.size)))
           (hashIndex k m.size)) k
    = findInChain (nth m.buckets (hashIndex k m.size)) k
  by_cases hieq : hashIndex k1 m.size = hashIndex k m.size
  · rw [← hieq]
    by_cases hlt : hashIndex k1 m.size < m.buckets.length
    · rw [nth_setNth_self _ _ _ hlt]
      simp [findInChain, hne]
    · rw [setNth_oob _ _ _ (Nat.le_of_not_lt hlt)]
  · rw [nth_setNth_ne _ _ _ _ hieq]

/-! Lemmas about delete_key. -/

theorem delete_not_found {m : Hashmap} {k : Key}
    (h : findInChain (nth m.buckets (hashIndex k m.size)) k = none) :
    delete_key m k = (HashMapStatus.HM_ERR_KEY_NOT_FOUND, m) := by
  simp only [delete_key, (deleteInChain_none_iff _ _).2 h]

theorem delete_found {m : Hashmap} {k : Key} {c1 : List Pair}
    (hd : deleteInChain (nth m.buckets (hashIndex k m.size)) k = some c1) :
    delete_key m k = (HashMapStatus.HM_SUCCESS,
      { m with buckets := setNth m.buckets (hashIndex k m.size) c1,
               count := m.count - 1 }) := by
  simp only [delete_key, hd]

theorem lt_of_deleteInChain_some {m : Hashmap} {k : Key} {c1 : List Pair}
    (hd : deleteInChain (nth m.buckets (hashIndex k m.size)) k = some c1) :
    hashIndex k m.size < m.buckets.length := by
  by_contra hge
  rw [nth_oob _ _ (Nat.le_of_not_lt hge)] at hd
  simp [deleteInChain] at hd

theorem wf_delete {m : Hashmap} (hwf : Wf m) (k : Key) : Wf (delete_key m k).2 := by
  cases hd : deleteInChain (nth m.buckets (hashIndex k m.size)) k with
  | none =>
      rw [delete_not_found ((deleteInChain_none_iff _ _).1 hd)]
      exact hwf
  | some c1 =>
      rw [delete_found hd]
      rcases deleteInChain_perm hd with ⟨p, hpk, hperm⟩
      have hlt := lt_of_deleteInChain_some hd
      have hpull := allEntries_pull m.buckets (hashIndex k m.size) p c1 hlt hperm
      refine ⟨hwf.size_pos, ?_, ?_, ?_, ?_⟩
      · show (setNth m.buckets (hashIndex k m.size) c1).length = m.size
        rw [length_setNth]
        exact hwf.len
      · show m.count - 1 = totalEntries _
        have hlen2 : totalEntries m
            = (allEntries (setNth m.buckets (hashIndex k m.size) c1)).length + 1 := by
          have := hpull.length_eq
          simpa [totalEntries] using this
        have : totalEntries { m with
              buckets := setNth m.buckets (hashIndex k m.size) c1,
              count := m.count - 1 }
            = (allEntries (setNth m.buckets (hashIndex k m.size) c1)).length := rfl
        rw [this, hwf.count_eq, hlen2]
        omega
      · intro i hi p1 hp1
        have hi' : i < m.buckets.length := by
          have hl : (setNth m.buckets (hashIndex k m.size) c1).length
              = m.buckets.length := length_setNth _ _ _
          simpa [hl] using hi
        show hashIndex p1.key m.size = i
        by_cases hieq : i = hashIndex k m.size
        · subst hieq
          have hb : nth (setNth m.buckets (hashIndex k m.size) c1)
              (hashIndex k m.size) = c1 := nth_setNth_self _ _ _ hlt
          rw [show nth ({ m with
                buckets := setNth m.buckets (hashIndex k m.size) c1,
                count := m.count - 1 } : Hashmap).buckets (hashIndex k m.size)
              = c1 from hb] at hp1
          have hmem : p1 ∈ nth m.buckets (hashIndex k m.size) :=
            hperm.mem_iff.2 (List.mem_cons_of_mem p hp1)
          exact hwf.indexed _ hi' p1 hmem
        · have hb : nth (setNth m.buckets (hashIndex k m.size) c1) i
              = nth m.buckets i := nth_setNth_ne _ _ _ _ fun he => hieq he.symm
          rw [show nth ({ m with
                buckets := setNth m.buckets (hashIndex k m.size) c1,
                count := m.count - 1 } : Hashmap).buckets i
              = nth m.buckets i from hb] at hp1
          exact hwf.indexed _ hi' p1 hp1
      · have hmap := hpull.map Pair.key
        have hnd2 := (List.Perm.nodup_iff hmap).1 hwf.keys_nodup
        simp only [List.map_cons, List.nodup_cons] at hnd2
        exact hnd2.2

theorem get_delete_self {m : Hashmap} (hwf : Wf m) (k : Key) :
    get (delete_key m k).2 k = Except.error HashMapStatus.HM_ERR_KEY_NOT_FOUND := by
  cases hd : deleteInChain (nth m.buckets (hashIndex k m.size)) k with
  | none =>
      have hf := (deleteInChain_none_iff _ _).1 hd
      rw [delete_not_found hf]
      exact get_eq_missing hf
  | some c1 =>
      rw [delete_found hd]
      have hlt := lt_of_deleteInChain_some hd
      refine get_eq_missing ?_
      show findInChain (nth (setNth m.buckets (hashIndex k m.size) c1)
              (hashIndex k m.size)) k = none
      rw [nth_setNth_self _ _ _ hlt]
      exact findInChain_deleteInChain_self (chain_nodup hwf _) hd

theorem get_delete_ne (m : Hashmap) {k1 k : Key} (hne : k1 ≠ k) :
    get (delete_key m k1).2 k = get m k := by
  cases hd : deleteInChain (nth m.buckets (hashIndex k1 m.size)) k1 with
  | none => rw [delete_not_found ((deleteInChain_none_iff _ _).1 hd)]
  | some c1 =>
      rw [delete_found hd]
      have hlt := lt_of_deleteInChain_some hd
      refine get_congr_chain ?_
      show findInChain (nth (setNth m.buckets (hashIndex k1 m.size) c1)
              (hashIndex k m.size)) k
        = findInChain (nth m.buckets (hashIndex k m.size)) k
      by_cases hieq : hashIndex k1 m.size = hashIndex k m.size
      · rw [← hieq, nth_setNth_self _ _ _ hlt]
        exact findInChain_deleteInChain_ne hne hd
      · rw [nth_setNth_ne _ _ _ _ hieq]

/-! Lemmas about the rehashing loops and resize. -/

theorem rehashChain_spec (chain : List Pair) (acc : List (List Pair))
    (size count : Nat) (hlen : acc.length = size) (hpos : 0 < size) :
    (rehashChain chain acc size count).1.length = size ∧
    (rehashChain chain acc size count).2 = count + chain.length ∧
    List.Perm (allEntries (rehashChain chain acc size count).1)
      (chain ++ allEntries acc) ∧
    (bucketsIndexed acc size → bucketsIndexed (rehashChain chain acc size count).1 size) := by
  induction chain generalizing acc count with
  | nil => exact ⟨hlen, by simp [rehashChain], List.Perm.refl _, fun h => h⟩
  | cons p rest ih =>
      have hlt : hashIndex p.key size < acc.length := by
        rw [hlen]
        exact Nat.mod_lt _ hpos
      have hlen1 : (setNth acc (hashIndex p.key size)
          (p :: nth acc (hashIndex p.key size))).length = size := by
        rw [length_setNth]
        exact hlen
      obtain ⟨h1, h2, h3, h4⟩ :=
        ih (setNth acc (hashIndex p.key size) (p :: nth acc (hashIndex p.key size)))
          (count + 1) hlen1
      refine ⟨h1, ?_, ?_, ?_⟩
      · show (rehashChain rest _ size (count + 1)).2 = count + (p :: rest).length
        rw [h2, List.length_cons]
        omega
      · show List.Perm (allEntries (rehashChain rest _ size (count + 1)).1)
            ((p :: rest) ++ allEntries acc)
        have hpush := allEntries_push acc (hashIndex p.key size) p hlt
        refine List.Perm.trans h3 ?_
        refine List.Perm.trans (List.Perm.append_left rest hpush) ?_
        exact List.perm_middle
      · intro hind
        refine h4 ?_
        intro i hi q hq
        have hi' : i < acc.length := by
          rw [length_setNth] at hi
          exact hi
        by_cases hieq : i = hashIndex p.key size
        · subst hieq
          rw [nth_setNth_self _ _ _ hlt] at hq
          rcases List.mem_cons.1 hq with rfl | hmem
          · rfl
          · exact hind _ hi' q hmem
        · rw [nth_setNth_ne _ _ _ _ fun he => hieq he.symm] at hq
          exact hind _ hi' q hq

theorem rehashAll_spec (old : List (List Pair)) (acc : List (List Pair))
    (size count : Nat) (hlen : acc.length = size) (hpos : 0 < size) :
    (rehashAll old acc size count).1.length = size ∧
    (rehashAll old acc size count).2 = count + (allEntries old).length ∧
    List.Perm (allEntries (rehashAll old acc size count).1)
      (allEntries old ++ allEntries acc) ∧
    (bucketsIndexed acc size → bucketsIndexed (rehashAll old acc size count).1 size) := by
  induction old generalizing acc count with
  | nil => exact ⟨hlen, by simp [rehashAll, allEntries], List.Perm.refl _, fun h => h⟩
  | cons chain rest ih =>
      obtain ⟨c1, c2, c3, c4⟩ := rehashChain_spec chain acc size count hlen hpos
      obtain ⟨r1, r2, r3, r4⟩ :=
        ih (rehashChain chain acc size count).1 (rehashChain chain acc size count).2 c1
      refine ⟨r1, ?_, ?_, fun h => r4 (c4 h)⟩
      · show (rehashAll rest _ size _).2 = count + (allEntries (chain :: rest)).length
        rw [r2, c2]
        show count + chain.length + (allEntries rest).length
            = count + (chain ++ allEntries rest).length
        rw [List.length_append]
        omega
      · show List.Perm (allEntries (rehashAll rest _ size _).1)
            (allEntries (chain :: rest) ++ allEntries acc)
        refine List.Perm.trans r3 ?_
        refine List.Perm.trans (List.Perm.append_left _ c3) ?_
        show List.Perm (allEntries rest ++ (chain ++ allEntries acc))
            ((chain ++ allEntries rest) ++ allEntries acc)
        rw [← List.append_assoc]
        exact List.Perm.append_right _ List.perm_append_comm

theorem resize_limit {m : Hashmap} (h : ulongMod ≤ 2 * m.size) :
    resize m = (HashMapStatus.HM_ERR_SIZE_LIMIT, m) := by
  simp only [resize]
  rw [if_pos h]

theorem resize_ok {m : Hashmap} (h : 2 * m.size < ulongMod) :
    resize m = (HashMapStatus.HM_SUCCESS,
      ⟨2 * m.size,
       (rehashAll m.buckets (List.replicate (2 * m.size) []) (2 * m.size) 0).1,
       (rehashAll m.buckets (List.replicate (2 * m.size) []) (2 * m.size) 0).2⟩) := by
  simp only [resize]
  rw [if_neg (by omega)]

theorem resize_spec {m : Hashmap} (hwf : Wf m) (h : 2 * m.size < ulongMod) :
    (resize m).1 = HashMapStatus.HM_SUCCESS ∧
    (resize m).2.size = 2 * m.size ∧
    (resize m).2.count = m.count ∧
    List.Perm (allEntries (resize m).2.buckets) (allEntries m.buckets) ∧
    Wf (resize m).2 := by
  have hpos2 : 0 < 2 * m.size := by
    have := hwf.size_pos
    omega
  obtain ⟨r1, r2, r3, r4⟩ := rehashAll_spec m.buckets (List.replicate (2 * m.size) [])
    (2 * m.size) 0 (List.length_replicate _ _) hpos2
  have hperm : List.Perm
      (allEntries (rehashAll m.buckets (List.replicate (2 * m.size) []) (2 * m.size) 0).1)
      (allEntries m.buckets) := by
    refine List.Perm.trans r3 ?_
    rw [allEntries_replicate, List.append_nil]
  have hcnt : (rehashAll m.buckets (List.replicate (2 * m.size) []) (2 * m.size) 0).2
      = m.count := by
    rw [r2, hwf.count_eq]
    simp [totalEntries]
  have hind : bucketsIndexed
      (rehashAll m.buckets (List.replicate (2 * m.size) []) (2 * m.size) 0).1
      (2 * m.size) := by
    refine r4 ?_
    intro i hi p hp
    rw [nth_replicate] at hp
    simp at hp
  rw [resize_ok h]
  refine ⟨rfl, rfl, hcnt, hperm, ?_⟩
  refine ⟨hpos2, r1, ?_, hind, ?_⟩
  · show (rehashAll m.buckets (List.replicate (2 * m.size) []) (2 * m.size) 0).2
        = totalEntries _
    rw [hcnt, hwf.count_eq]
    show totalEntries m
        = (allEntries (rehashAll m.buckets (List.replicate (2 * m.size) [])
            (2 * m.size) 0).1).length
    rw [hperm.length_eq]
    rfl
  · exact (List.Perm.nodup_iff (hperm.map Pair.key)).2 hwf.keys_nodup

theorem wf_resize {m : Hashmap} (hwf : Wf m) : Wf (resize m).2 := by
  by_cases h : 2 * m.size < ulongMod
  · exact (resize_spec hwf h).2.2.2.2
  · rw [resize_limit (Nat.le_of_not_lt h)]
    exact hwf

theorem get_resize {m : Hashmap} (hwf : Wf m) (k : Key) :
    get (resize m).2 k = get m k := by
  by_cases h : 2 * m.size < ulongMod
  · obtain ⟨-, -, -, hperm, hwf2⟩ := resize_spec hwf h
    rcases get_cases m k with ⟨v, hv⟩ | hv
    · rw [hv]
      refine (get_ok_iff hwf2).2 ?_
      rcases (get_ok_iff hwf).1 hv with ⟨p, hp, hk, hval⟩
      exact ⟨p, hperm.mem_iff.2 hp, hk, hval⟩
    · rw [hv]
      refine (get_err_iff hwf2).2 ?_
      intro p hp
      exact (get_err_iff hwf).1 hv p (hperm.mem_iff.1 hp)
  · rw [resize_limit (Nat.le_of_not_lt h)]

/-! Branch lemmas for put, and preservation along operation sequences. -/

theorem put_update_eq {m : Hashmap} {k : Key} (v : Int)
    (h : chainHasKey (nth m.buckets (hashIndex k m.size)) k = true) :
    put m k v = (HashMapStatus.HM_SUCCESS, putUpdate m k v) := by
  simp [put, h]

theorem put_insert_noresize {m : Hashmap} {k : Key} (v : Int)
    (h : chainHasKey (nth m.buckets (hashIndex k m.size)) k = false)
    (hlf : loadFactorGtMax (m.count + 1) m.size = false) :
    put m k v = (HashMapStatus.HM_SUCCESS, putInsert m k v) := by
  simp [put, h, putInsert_size, putInsert_count, hlf]

theorem resize_fst_ok {m : Hashmap} (h : 2 * m.size < ulongMod) :
    (resize m).1 = HashMapStatus.HM_SUCCESS := by
  rw [resize_ok h]

theorem put_insert_resize {m : Hashmap} {k : Key} (v : Int)
    (h : chainHasKey (nth m.buckets (hashIndex k m.size)) k = false)
    (hlf : loadFactorGtMax (m.count + 1) m.size = true)
    (hsz : 2 * m.size < ulongMod) :
    put m k v = (HashMapStatus.HM_SUCCESS, (resize (putInsert m k v)).2) := by
  have hsz2 : 2 * (putInsert m k v).size < ulongMod := by
    rw [putInsert_size]
    exact hsz
  simp [put, h, putInsert_size, putInsert_count, hlf, resize_fst_ok hsz2]

theorem put_insert_resize_fail {m : Hashmap} {k : Key} (v : Int)
    (h : chainHasKey (nth m.buckets (hashIndex k m.size)) k = false)
    (hlf : loadFactorGtMax (m.count + 1) m.size = true)
    (hsz : ulongMod ≤ 2 * m.size) :
    put m k v = (HashMapStatus.HM_ERR_REHASHING_FAILED, putInsert m k v) := by
  have hsz2 : ulongMod ≤ 2 * (putInsert m k v).size := by
    rw [putInsert_size]
    exact hsz
  simp [put, h, putInsert_size, putInsert_count, hlf, resize_limit hsz2]

theorem wf_put {m : Hashmap} (hwf : Wf m) (k : Key) (v : Int) : Wf (put m k v).2 := by
  cases h : chainHasKey (nth m.buckets (hashIndex k m.size)) k with
  | true =>
      rw [put_update_eq v h]
      exact wf_putUpdate hwf k v
  | false =>
      have hwfi := wf_putInsert hwf v h
      cases hlf : loadFactorGtMax (m.count + 1) m.size with
      | true =>
          by_cases hsz : 2 * m.size < ulongMod
          · rw [put_insert_resize v h hlf hsz]
            exact wf_resize hwfi
          · rw [put_insert_resize_fail v h hlf (Nat.le_of_not_lt hsz)]
            exact hwfi
      | false =>
          rw [put_insert_noresize v h hlf]
          exact hwfi

theorem get_put_self {m : Hashmap} (hwf : Wf m) (k : Key) (v : Int)
    (hs : (put m k v).1 = HashMapStatus.HM_SUCCESS) :
    get (put m k v).2 k = Except.ok v := by
  cases h : chainHasKey (nth m.buckets (hashIndex k m.size)) k with
  | true =>
      rw [put_update_eq v h]
      exact get_putUpdate_self v h
  | false =>
      have hwfi := wf_putInsert hwf v h
      cases hlf : loadFactorGtMax (m.count + 1) m.size with
      | true =>
          by_cases hsz : 2 * m.size < ulongMod
          · rw [put_insert_resize v h hlf hsz]
            rw [show ((HashMapStatus.HM_SUCCESS, (resize (putInsert m k v)).2)).2
                = (resize (putInsert m k v)).2 from rfl]
            rw [get_resize hwfi k]
            exact get_putInsert_self hwf k v
          · rw [put_insert_resize_fail v h hlf (Nat.le_of_not_lt hsz)] at hs
            simp at hs
      | false =>
          rw [put_insert_noresize v h hlf]
          exact get_putInsert_self hwf k v

theorem get_put_ne {m : Hashmap} (hwf : Wf m) {k1 k : Key} (v : Int) (hne : k1 ≠ k) :
    get (put m k1 v).2 k = get m k := by
  cases h : chainHasKey (nth m.buckets (hashIndex k1 m.size)) k1 with
  | true =>
      rw [put_update_eq v h]
      exact get_putUpdate_ne m v hne
  | false =>
      have hwfi := wf_putInsert hwf v h
      cases hlf : loadFactorGtMax (m.count + 1) m.size with
      | true =>
          by_cases hsz : 2 * m.size < ulongMod
          · rw [put_insert_resize v h hlf hsz]
            rw [show ((HashMapStatus.HM_SUCCESS, (resize (putInsert m k1 v)).2)).2
                = (resize (putInsert m k1 v)).2 from rfl]
            rw [get_resize hwfi k]
            exact get_putInsert_ne m v hne
          · rw [put_insert_resize_fail v h hlf (Nat.le_of_not_lt hsz)]
            exact get_putInsert_ne m v hne
      | false =>
          rw [put_insert_noresize v h hlf]
          exact get_putInsert_ne m v hne

theorem wf_applyOp {m : Hashmap} (hwf : Wf m) (op : Op) : Wf (applyOp m op) := by
  cases op with
  | opPut k v => exact wf_put hwf k v
  | opGet k => exact hwf
  | opDelete k => exact wf_delete hwf k
  | opResize => exact wf_resize hwf

theorem wf_runOps (ops : List Op) :
    ∀ {m : Hashmap}, Wf m → Wf (runOps m ops) := by
  induction ops with
  | nil => intro m hwf; exact hwf
  | cons op rest ih => intro m hwf; exact ih (wf_applyOp hwf op)

theorem get_applyOp {m : Hashmap} (hwf : Wf m) {k : Key} {v : Int} {op : Op}
    (hget : get m k = Except.ok v) (hav : opAvoids op k = true) :
    get (applyOp m op) k = Except.ok v := by
  cases op with
  | opPut k1 v1 =>
      have hne : k1 ≠ k := by simpa [opAvoids] using hav
      show get (put m k1 v1).2 k = Except.ok v
      rw [get_put_ne hwf v1 hne]
      exact hget
  | opGet k1 => exact hget
  | opDelete k1 =>
      have hne : k1 ≠ k := by simpa [opAvoids] using hav
      show get (delete_key m k1).2 k = Except.ok v
      rw [get_delete_ne m hne]
      exact hget
  | opResize =>
      show get (resize m).2 k = Except.ok v
      rw [get_resize hwf k]
      exact hget

theorem get_runOps {k : Key} {v : Int} (ops : List Op) :
    ∀ {m : Hashmap}, Wf m → get m k = Except.ok v →
      (∀ op ∈ ops, opAvoids op k = true) → get (runOps m ops) k = Except.ok v := by
  induction ops with
  | nil => intro m _ hget _; exact hget
  | cons op rest ih =>
      intro m hwf hget hav
      exact ih (wf_applyOp hwf op)
        (get_applyOp hwf hget (hav op (List.mem_cons_self op rest)))
        (fun o ho => hav o (List.mem_cons_of_mem _ ho))

theorem wf_create {n : Int} {m : Hashmap} (h : c_hashmap n = some m) : Wf m := by
  unfold c_hashmap at h
  by_cases hn : n ≤ 0
  · rw [if_pos hn] at h
    cases h
  · rw [if_neg hn] at h
    simp only [Option.some.injEq] at h
    subst h
    refine ⟨?_, ?_, ?_, ?_, ?_⟩
    · show 0 < n.toNat
      omega
    · exact List.length_replicate _ _
    · show 0 = totalEntries _
      simp [totalEntries, allEntries_replicate]
    · intro i hi p hp
      rw [nth_replicate] at hp
      simp at hp
    · simp [allEntries_replicate]

theorem contains_eq (m : Hashmap) (k : Key) :
    contains_key m k = chainHasKey (nth m.buckets (hashIndex k m.size)) k := rfl

theorem putUpdate_keys_pointwise (m : Hashmap) (k : Key) (v : Int) (i : Nat) :
    (nth (putUpdate m k v).buckets i).map Pair.key
      = (nth m.buckets i).map Pair.key := by
  show (nth (setNth m.buckets (hashIndex k m.size)
          (updateChain (nth m.buckets (hashIndex k m.size)) k v)) i).map Pair.key = _
  by_cases hieq : hashIndex k m.size = i
  · rw [← hieq]
    by_cases hlt : hashIndex k m.size < m.buckets.length
    · rw [nth_setNth_self _ _ _ hlt, updateChain_keys]
    · rw [setNth_oob _ _ _ (Nat.le_of_not_lt hlt)]
  · rw [nth_setNth_ne _ _ _ _ hieq]

/-! The claims. -/

/-- C1: for every key and value successfully inserted via put, a subsequent get
of that key returns that value, and this keeps holding across any further
operations as long as none of them deletes that key or puts to the same key.
The `runIntSafe` bound keeps every state of the run (the put included) inside
the int range of the size and count fields, the regime where this embedding is
the program; growing past it hits the size-field wrap reported at C6. -/
theorem put_get_persists (m : Hashmap) (k : Key) (v : Int) (hwf : Wf m)
    (hs : (put m k v).1 = HashMapStatus.HM_SUCCESS) (ops : List Op)
    (hav : ∀ op ∈ ops, opAvoids op k = true)
    (_hsafe : runIntSafe m (Op.opPut k v :: ops)) :
    get (put m k v).2 k = Except.ok v ∧
    get (runOps (put m k v).2 ops) k = Except.ok v := by
  have h1 := get_put_self hwf k v hs
  exact ⟨h1, get_runOps ops (wf_put hwf k v) h1 hav⟩

/-- Witness for C1 on a concrete map and operation sequence. -/
theorem put_get_persists_witness :
    Wf (⟨2, [[], []], 0⟩ : Hashmap) ∧
    (put (⟨2, [[], []], 0⟩ : Hashmap) [97] 1).1 = HashMapStatus.HM_SUCCESS ∧
    (∀ op ∈ [Op.opPut [98] 2, Op.opResize, Op.opDelete [98], Op.opGet [97]],
      opAvoids op [97] = true) ∧
    runIntSafe (⟨2, [[], []], 0⟩ : Hashmap)
      (Op.opPut [97] 1 :: [Op.opPut [98] 2, Op.opResize, Op.opDelete [98], Op.opGet [97]]) ∧
    (get (put (⟨2, [[], []], 0⟩ : Hashmap) [97] 1).2 [97] = Except.ok 1 ∧
     get (runOps (put (⟨2, [[], []], 0⟩ : Hashmap) [97] 1).2
        [Op.opPut [98] 2, Op.opResize, Op.opDelete [98], Op.opGet [97]]) [97]
       = Except.ok 1) :=
  ⟨by decide, by decide, by decide, by decide,
   put_get_persists (⟨2, [[], []], 0⟩ : Hashmap) [97] 1 (by decide) (by decide)
     [Op.opPut [98] 2, Op.opResize, Op.opDelete [98], Op.opGet [97]] (by decide)
     (by decide)⟩

/-- C2: after any sequence of operations starting from a freshly created
container, the count field equals the exact number of entries reachable by
walking every bucket's chain.  The `runIntSafe` bound keeps every state of the
run inside the int range of the size and count fields, the regime where this
embedding is the program; growing past it hits the size-field wrap reported at
C6. -/
theorem count_matches_reachable_entries (n : Int) (m0 : Hashmap)
    (h0 : c_hashmap n = some m0) (ops : List Op)
    (_hsafe : runIntSafe m0 ops) :
    (runOps m0 ops).count = totalEntries (runOps m0 ops) :=
  (wf_runOps ops (wf_create h0)).count_eq

/-- Witness for C2 on a concrete creation and operation sequence. -/
theorem count_matches_reachable_entries_witness :
    c_hashmap 2 = some (⟨2, [[], []], 0⟩ : Hashmap) ∧
    runIntSafe (⟨2, [[], []], 0⟩ : Hashmap)
      [Op.opPut [97] 1, Op.opPut [98] 2, Op.opDelete [97], Op.opResize,
       Op.opGet [98]] ∧
    (runOps (⟨2, [[], []], 0⟩ : Hashmap)
        [Op.opPut [97] 1, Op.opPut [98] 2, Op.opDelete [97], Op.opResize,
         Op.opGet [98]]).count
      = totalEntries (runOps (⟨2, [[], []], 0⟩ : Hashmap)
        [Op.opPut [97] 1, Op.opPut [98] 2, Op.opDelete [97], Op.opResize,
         Op.opGet [98]]) :=
  ⟨by decide, by decide,
   count_matches_reachable_entries 2 (⟨2, [[], []], 0⟩ : Hashmap) (by decide)
     [Op.opPut [97] 1, Op.opPut [98] 2, Op.opDelete [97], Op.opResize, Op.opGet [98]]
     (by decide)⟩

/-- C3: when resize returns success on a container whose doubled bucket count
still fits the int size field, every stored entry sits in the bucket selected
by its hash modulo the new size, count equals the pre-resize count, and
membership of the stored entries is unchanged.  The int bound delimits the
regime where the embedding is the program: past it the code also returns
success, but wraps the stored size field and corrupts the container (the C6
defect). -/
theorem resize_postconditions (m : Hashmap) (hwf : Wf m)
    (hfits : 2 * m.size ≤ INT_MAX)
    (_hs : (resize m).1 = HashMapStatus.HM_SUCCESS) :
    bucketsIndexed (resize m).2.buckets (resize m).2.size ∧
    (resize m).2.count = m.count ∧
    (∀ p : Pair, p ∈ allEntries (resize m).2.buckets ↔ p ∈ allEntries m.buckets) := by
  have hsz : 2 * m.size < ulongMod := by
    have hlt : INT_MAX < ulongMod := by norm_num [INT_MAX, ulongMod]
    omega
  obtain ⟨-, -, hcnt, hperm, hwf2⟩ := resize_spec hwf hsz
  exact ⟨hwf2.indexed, hcnt, fun p => hperm.mem_iff⟩

/-- Witness for C3 on a concrete one-entry map. -/
theorem resize_postconditions_witness :
    Wf (⟨1, [[⟨[97], 5⟩]], 1⟩ : Hashmap) ∧
    2 * (⟨1, [[⟨[97], 5⟩]], 1⟩ : Hashmap).size ≤ INT_MAX ∧
    (resize (⟨1, [[⟨[97], 5⟩]], 1⟩ : Hashmap)).1 = HashMapStatus.HM_SUCCESS ∧
    (resize (⟨1, [[⟨[97], 5⟩]], 1⟩ : Hashmap)).2.count
      = (⟨1, [[⟨[97], 5⟩]], 1⟩ : Hashmap).count :=
  ⟨by decide, by decide, by decide,
   (resize_postconditions (⟨1, [[⟨[97], 5⟩]], 1⟩ : Hashmap) (by decide) (by decide)
      (by decide)).2.1⟩

/-- C4: put with a key already present overwrites the value in place and
returns success, with no change to count or size, an identical key layout in
every bucket (so no new key storage), and the scenario insert x 1 then
insert x 2 yields lookup 2 with count 1. -/
theorem put_existing_key_updates_in_place (m : Hashmap) (k : Key) (v : Int)
    (hmem : contains_key m k = true) :
    (put m k v).1 = HashMapStatus.HM_SUCCESS ∧
    (put m k v).2.count = m.count ∧
    (put m k v).2.size = m.size ∧
    (∀ i, (nth (put m k v).2.buckets i).map Pair.key
        = (nth m.buckets i).map Pair.key) ∧
    get (put m k v).2 k = Except.ok v ∧
    (∀ m0, c_hashmap 4 = some m0 →
      get (put (put m0 [120] 1).2 [120] 2).2 [120] = Except.ok 2 ∧
      (put (put m0 [120] 1).2 [120] 2).2.count = 1) := by
  have hck : chainHasKey (nth m.buckets (hashIndex k m.size)) k = true := by
    rw [← contains_eq]
    exact hmem
  rw [put_update_eq v hck]
  refine ⟨rfl, rfl, rfl, ?_, get_putUpdate_self v hck, ?_⟩
  · intro i
    exact putUpdate_keys_pointwise m k v i
  · intro m0 h0
    have h4 : c_hashmap 4 = some (⟨4, [[], [], [], []], 0⟩ : Hashmap) := by decide
    rw [h4] at h0
    simp only [Option.some.injEq] at h0
    subst h0
    exact ⟨by decide, by decide⟩

/-- Witness for C4 on a concrete one-entry map. -/
theorem put_existing_key_updates_in_place_witness :
    contains_key (⟨1, [[⟨[120], 1⟩]], 1⟩ : Hashmap) [120] = true ∧
    ((put (⟨1, [[⟨[120], 1⟩]], 1⟩ : Hashmap) [120] 2).2.count
        = (⟨1, [[⟨[120], 1⟩]], 1⟩ : Hashmap).count ∧
     get (put (⟨1, [[⟨[120], 1⟩]], 1⟩ : Hashmap) [120] 2).2 [120] = Except.ok 2) :=
  ⟨by decide,
   (put_existing_key_updates_in_place (⟨1, [[⟨[120], 1⟩]], 1⟩ : Hashmap) [120] 2
      (by decide)).2.1,
   (put_existing_key_updates_in_place (⟨1, [[⟨[120], 1⟩]], 1⟩ : Hashmap) [120] 2
      (by decide)).2.2.2.2.1⟩

/-- C6: the claim says resize reports SizeLimitExceeded when doubling would
overflow the bucket-count's integer range (a 32-bit int); the code instead
checks the multiplication against the 64-bit size_t range, which cannot fire
for any int-valued size, so on a container of size 2^30 resize proceeds with
success and the assignment of 2^31 into the int size field wraps to -2^31. -/
theorem resize_overflow_check_unsound :
    (resize (⟨2 ^ 30, List.replicate (2 ^ 30) [], 0⟩ : Hashmap)).1
      = HashMapStatus.HM_SUCCESS ∧
    INT_MAX < 2 * (⟨2 ^ 30, List.replicate (2 ^ 30) [], 0⟩ : Hashmap).size ∧
    intWrap (2 * (⟨2 ^ 30, List.replicate (2 ^ 30) [], 0⟩ : Hashmap).size)
      = -(2 ^ 31) := by
  refine ⟨?_, ?_, ?_⟩
  · refine resize_fst_ok ?_
    show 2 * 2 ^ 30 < ulongMod
    norm_num [ulongMod]
  · show INT_MAX < 2 * 2 ^ 30
    norm_num [INT_MAX]
  · show intWrap (2 * 2 ^ 30) = -(2 ^ 31)
    norm_num [intWrap]

/-- C7: the hash is deterministic and total over byte sequences, starts from
seed 5381, folds each byte in order through hash times 33 plus the byte in
wrapping unsigned-long arithmetic, and the empty string hashes to 5381. -/
theorem hash_djb2_spec :
    hash ([] : Key) = 5381 ∧
    (∀ (s : Key) (b : Nat), hash (s ++ [b]) = (hash s * 33 + b) % ulongMod) ∧
    (∀ s1 s2 : Key, s1 = s2 → hash s1 = hash s2) := by
  refine ⟨rfl, ?_, ?_⟩
  · intro s b
    unfold hash
    rw [List.foldl_append]
    rfl
  · intro s1 s2 h
    rw [h]

/-- Witness for C7 at concrete byte strings. -/
theorem hash_djb2_spec_witness :
    hash ([97] ++ [98]) = (hash [97] * 33 + 98) % ulongMod ∧
    hash [97] = hash [97] :=
  ⟨hash_djb2_spec.2.1 [97] 98, hash_djb2_spec.2.2 [97] [97] rfl⟩

/-- C8: after delete_key on a key, get of that key yields KeyNotFound; on an
absent key delete_key returns KeyNotFound leaving the container unchanged, and
the container stays well-formed (usable) in all cases. -/
theorem delete_then_get_not_found (m : Hashmap) (k : Key) (hwf : Wf m) :
    get (delete_key m k).2 k = Except.error HashMapStatus.HM_ERR_KEY_NOT_FOUND ∧
    (contains_key m k = false →
      (delete_key m k).1 = HashMapStatus.HM_ERR_KEY_NOT_FOUND ∧
      (delete_key m k).2 = m) ∧
    Wf (delete_key m k).2 := by
  refine ⟨get_delete_self hwf k, ?_, wf_delete hwf k⟩
  intro habs
  rw [contains_eq] at habs
  have hf : findInChain (nth m.buckets (hashIndex k m.size)) k = none :=
    (chainHasKey_false_iff _ _).1 habs
  rw [delete_not_found hf]
  exact ⟨rfl, rfl⟩

/-- Witness for C8 on a concrete one-entry map and on an absent key. -/
theorem delete_then_get_not_found_witness :
    Wf (⟨2, [[⟨[97], 1⟩], []], 1⟩ : Hashmap) ∧
    (get (delete_key (⟨2, [[⟨[97], 1⟩], []], 1⟩ : Hashmap) [97]).2 [97]
        = Except.error HashMapStatus.HM_ERR_KEY_NOT_FOUND ∧
     (delete_key (⟨2, [[], []], 0⟩ : Hashmap) [97]).1
        = HashMapStatus.HM_ERR_KEY_NOT_FOUND ∧
     (delete_key (⟨2, [[], []], 0⟩ : Hashmap) [97]).2 = (⟨2, [[], []], 0⟩ : Hashmap)) :=
  ⟨by decide,
   (delete_then_get_not_found (⟨2, [[⟨[97], 1⟩], []], 1⟩ : Hashmap) [97] (by decide)).1,
   ((delete_then_get_not_found (⟨2, [[], []], 0⟩ : Hashmap) [97] (by decide)).2.1
      (by decide)).1,
   ((delete_then_get_not_found (⟨2, [[], []], 0⟩ : Hashmap) [97] (by decide)).2.1
      (by decide)).2⟩

/-- C9: clear empties every bucket, resets count to 0, keeps the bucket array
size unchanged, contains of any key is false afterwards, and contains is a
boolean variant of lookup with identical chain-walk logic. -/
theorem clear_contains_spec (m : Hashmap) :
    (clear m).1 = HashMapStatus.HM_SUCCESS ∧
    (clear m).2.count = 0 ∧
    (clear m).2.size = m.size ∧
    (clear m).2.buckets.length = m.buckets.length ∧
    (∀ k, contains_key (clear m).2 k = false) ∧
    (∀ k, contains_key m k = isFound (get m k)) := by
  refine ⟨rfl, rfl, rfl, ?_, ?_, ?_⟩
  · show (m.buckets.map fun _ => []).length = m.buckets.length
    exact List.length_map _ _
  · intro k
    show chainHasKey (nth (m.buckets.map fun _ => []) (hashIndex k m.size)) k = false
    rw [nth_map_nil]
    rfl
  · intro k
    show chainHasKey (nth m.buckets (hashIndex k m.size)) k = isFound (get m k)
    cases hf : findInChain (nth m.buckets (hashIndex k m.size)) k with
    | none =>
        rw [(chainHasKey_false_iff _ _).2 hf, get_eq_missing hf]
        rfl
    | some v =>
        rcases findInChain_mem hf with ⟨p, hp, hk, -⟩
        rw [chainHasKey_of_mem hp hk, get_eq_found hf]
        rfl

/-- C10: in every container state reachable from create by put, delete_key and
resize operations, no key occurs in more than one entry across all chains.
The `runIntSafe` bound keeps every state of the run inside the int range of
the size and count fields, the regime where this embedding is the program;
growing past it hits the size-field wrap reported at C6. -/
theorem no_duplicate_keys_invariant (n : Int) (m0 : Hashmap)
    (h0 : c_hashmap n = some m0) (ops : List Op)
    (_hsafe : runIntSafe m0 ops) :
    ((allEntries (runOps m0 ops).buckets).map Pair.key).Nodup :=
  (wf_runOps ops (wf_create h0)).keys_nodup

/-- Witness for C10 on a concrete creation and operation sequence. -/
theorem no_duplicate_keys_invariant_witness :
    c_hashmap 2 = some (⟨2, [[], []], 0⟩ : Hashmap) ∧
    runIntSafe (⟨2, [[], []], 0⟩ : Hashmap)
      [Op.opPut [97] 1, Op.opPut [97] 2, Op.opPut [98] 3, Op.opResize,
       Op.opDelete [97]] ∧
    ((allEntries (runOps (⟨2, [[], []], 0⟩ : Hashmap)
        [Op.opPut [97] 1, Op.opPut [97] 2, Op.opPut [98] 3, Op.opResize,
         Op.opDelete [97]]).buckets).map Pair.key).Nodup :=
  ⟨by decide, by decide,
   no_duplicate_keys_invariant 2 (⟨2, [[], []], 0⟩ : Hashmap) (by decide)
     [Op.opPut [97] 1, Op.opPut [97] 2, Op.opPut [98] 3, Op.opResize,
      Op.opDelete [97]] (by decide)⟩

end CHashmap
